import Mathlib

/-!
Verification of the numerical engine of the Witsenhausen counterexample demo.

The development shallowly embeds the TypeScript sources over the real numbers:
JavaScript floating point arithmetic is idealised as exact real arithmetic,
Math.exp, Math.cosh, Math.sqrt, Math.PI become their Mathlib counterparts, and
each exported function of src/mathUtils.ts (and the lookup helpers of
src/App.tsx) becomes a Lean definition with the same name and structure.
-/

/-- Simpson quadrature from src/mathUtils.ts (integrate). The loop
for i in [1, n) accumulates f(min + i*h) weighted 4 at odd i and 2 at even i,
h = (max - min)/n; endpoints are added once and the total is multiplied by h/3.
The loop is rendered as a finite sum over Finset.Ico 1 n. -/
noncomputable def integrate (f : ℝ → ℝ) (min max : ℝ) (n : ℕ) : ℝ :=
  (f min + f max +
      ∑ i ∈ Finset.Ico 1 n, f (min + i * ((max - min) / n)) * (if i % 2 = 0 then 2 else 4)) *
    ((max - min) / n) / 3

/-- The auxiliary function h(a) from src/mathUtils.ts (calculateH): 0 when
a = 0 (hard coded limit case), otherwise
a^2 * exp(-a^2/2) * integral over [-10,10] (n = 200) of exp(-y^2/2)/cosh(a y).
The source writes exp(-0.5*y*y); we keep that literal form. -/
noncomputable def calculateH (a : ℝ) : ℝ :=
  if a = 0 then 0
  else
    a * a * Real.exp (-0.5 * (a * a)) *
      integrate (fun y => Real.exp (-0.5 * (y * y)) / Real.cosh (a * y)) (-10) 10 200

/-- The characteristic function f(t) = (t - sigma)*(1 + t^2)^2 + t/k^2 defined
locally inside solveAffineLambda in src/mathUtils.ts (the source writes
Math.pow(1 + t*t, 2) and k*k). -/
noncomputable def charF (k sigma t : ℝ) : ℝ :=
  (t - sigma) * (1 + t * t) ^ 2 + t / (k * k)

/-- The bisection loop of solveAffineLambda in src/mathUtils.ts, with the
iteration budget (iter < 100 in the source) made explicit as fuel. Each pass
computes mid = (low + high)/2, exits early when the absolute residual drops
below tol, otherwise keeps the half bracket with the sign change; when the
fuel runs out the last computed midpoint (threaded through as mid0) is
returned unconditionally, exactly as the source returns mid after the loop. -/
noncomputable def bisectLoop (f : ℝ → ℝ) (tol : ℝ) : ℕ → ℝ → ℝ → ℝ → ℝ
  | 0, _, _, mid0 => mid0
  | fuel + 1, low, high, _ =>
    if |f ((low + high) / 2)| < tol then (low + high) / 2
    else if f low * f ((low + high) / 2) < 0 then
      bisectLoop f tol fuel low ((low + high) / 2) ((low + high) / 2)
    else
      bisectLoop f tol fuel ((low + high) / 2) high ((low + high) / 2)

/-- solveAffineLambda from src/mathUtils.ts: if f(0)*f(sigma) > 0 the 0
fallback sentinel is returned; otherwise 100 bisection iterations with
tolerance 1e-6 run on the bracket [0, sigma] starting from mid = 0, and the
result is divided by sigma to obtain lambda. -/
noncomputable def solveAffineLambda (k sigma : ℝ) : ℝ :=
  if charF k sigma 0 * charF k sigma sigma > 0 then 0
  else bisectLoop (charF k sigma) 1e-6 100 0 sigma 0 / sigma

/-- Standard normal density phi from src/mathUtils.ts. -/
noncomputable def phi (x : ℝ) : ℝ :=
  1 / Real.sqrt (2 * Real.pi) * Real.exp (-0.5 * (x * x))

/-- The golden ratio factor (sqrt 5 - 1)/2 named GR in goldenSectionSearch. -/
noncomputable def GR : ℝ := (Real.sqrt 5 - 1) / 2

/-- One pass of the goldenSectionSearch while loop of src/mathUtils.ts: the
probes are c = b - GR*(b - a) and d = a + GR*(b - a), and the bracket keeps
the side of the lower valued probe. -/
noncomputable def gssStep (f : ℝ → ℝ) (a b : ℝ) : ℝ × ℝ :=
  if f (b - GR * (b - a)) < f (a + GR * (b - a)) then (a, a + GR * (b - a))
  else (b - GR * (b - a), b)

/-- Small step semantics of the goldenSectionSearch while loop, which in the
source has no iteration cap: it runs while the bracket width exceeds tol.
gssLoopO returns the exit bracket when the loop exits within the given fuel
and none when the condition is still true after the fuel is spent, so the
source loop terminates on given arguments iff some fuel yields some bracket. -/
noncomputable def gssLoopO (f : ℝ → ℝ) (tol : ℝ) : ℕ → ℝ → ℝ → Option (ℝ × ℝ)
  | 0, a, b => if |b - a| > tol then none else some (a, b)
  | fuel + 1, a, b =>
    if |b - a| > tol then gssLoopO f tol fuel (gssStep f a b).1 (gssStep f a b).2
    else some (a, b)

/-- goldenSectionSearch from src/mathUtils.ts: run the uncapped while loop to
its exit bracket (a, b) and return (b + a)/2. The loop semantics is taken
from gssLoopO; when the loop never exits (which cannot happen for the tol
used by the source, see the termination lemmas below) the source diverges and
the returned value here is an unused modelling default. -/
noncomputable def goldenSectionSearch (f : ℝ → ℝ) (a b tol : ℝ) : ℝ :=
  letI := Classical.propDecidable (∃ fuel, (gssLoopO f tol fuel a b).isSome = true)
  if h : ∃ fuel, (gssLoopO f tol fuel a b).isSome = true then
    match gssLoopO f tol (Nat.find h) a b with
    | some p => (p.2 + p.1) / 2
    | none => (b + a) / 2
  else (b + a) / 2

/-- calculateVk from src/mathUtils.ts: minimise
costFunc a = k*k*(a - xi)^2 + h(a) by golden section search on [-20, 20]
(tol defaults to 1e-4 in the source) and return costFunc at the minimiser. -/
noncomputable def calculateVk (xi k : ℝ) : ℝ :=
  (fun a => k * k * (a - xi) ^ 2 + calculateH a)
    (goldenSectionSearch (fun a => k * k * (a - xi) ^ 2 + calculateH a) (-20) 20 1e-4)

/-- calculateLowerBound from src/mathUtils.ts:
2 * integral over [0, 5] (n = 50) of phi(z) * Vk(sigma*z, k). -/
noncomputable def calculateLowerBound (k sigma : ℝ) : ℝ :=
  2 * integrate (fun z => phi z * calculateVk (sigma * z) k) 0 5 50

/-- The record returned by calculateCosts. -/
structure CostsResult where
  lambda : ℝ
  affineCost : ℝ
  nonlinCost : ℝ
  lowerBound : ℝ

/-- calculateCosts from src/mathUtils.ts, with the local consts of the source
(lambda, affineCost, firstTerm, secondTerm, nonlinCost, lowerBound) inlined. -/
noncomputable def calculateCosts (k sigma : ℝ) : CostsResult where
  lambda := solveAffineLambda k sigma
  affineCost :=
    k * k * sigma * sigma * (1 - solveAffineLambda k sigma) ^ 2 +
      sigma * sigma * solveAffineLambda k sigma * solveAffineLambda k sigma /
        (1 + sigma * sigma * solveAffineLambda k sigma * solveAffineLambda k sigma)
  nonlinCost :=
    2 * k * k * sigma * sigma * (1 - Real.sqrt (2 / Real.pi)) + calculateH sigma
  lowerBound := calculateLowerBound k sigma

/-- Axis metadata of the persisted grid (metadata.k and metadata.sigma in
src/data/costs.json, consumed by src/App.tsx). -/
structure AxisMeta where
  min : ℝ
  step : ℝ

/-- Math.round as used by the lookup helpers of src/App.tsx, idealised over
the reals: round half up, that is the floor of x + 1/2. -/
noncomputable def jsRound (x : ℝ) : ℤ := ⌊x + 1 / 2⌋

/-- getKIndex from src/App.tsx: Math.round((k - min)/step) on the k axis. -/
noncomputable def getKIndex (meta : AxisMeta) (k : ℝ) : ℤ :=
  jsRound ((k - meta.min) / meta.step)

/-- getSigmaIndex from src/App.tsx: Math.round((s - min)/step). -/
noncomputable def getSigmaIndex (meta : AxisMeta) (s : ℝ) : ℤ :=
  jsRound ((s - meta.min) / meta.step)

/-- The value produced by the results memo of src/App.tsx: the spread cell
fields plus the isCounterExample flag. -/
structure AppResult where
  lambda : ℝ
  affineCost : ℝ
  nonlinCost : ℝ
  lowerBound : ℝ
  isCounterExample : Bool

/-- The results lookup of src/App.tsx: compute both indices, check
0 <= kIdx < data.length and 0 <= sIdx < data[0].length, and either read the
cell (setting isCounterExample to nonlinCost < affineCost) or fall back to
the all zero result with isCounterExample false. The table rows are modelled
as lists; data[0] is the head row as in the source. -/
noncomputable def appResults (data : List (List CostsResult)) (kMeta sigmaMeta : AxisMeta)
    (k sigma : ℝ) : AppResult :=
  if 0 ≤ getKIndex kMeta k ∧ (getKIndex kMeta k : ℤ) < (data.length : ℤ) ∧
      0 ≤ getSigmaIndex sigmaMeta sigma ∧
      (getSigmaIndex sigmaMeta sigma : ℤ) < ((data.headD []).length : ℤ) then
    let costs := (data.getD (getKIndex kMeta k).toNat []).getD
      (getSigmaIndex sigmaMeta sigma).toNat ⟨0, 0, 0, 0⟩
    ⟨costs.lambda, costs.affineCost, costs.nonlinCost, costs.lowerBound,
      if costs.nonlinCost < costs.affineCost then true else false⟩
  else ⟨0, 0, 0, 0, false⟩

/-- Spec side rendering of the affine gain (claim C2): lambda = t/sigma with t
the bisection approximation on the bracket [0, sigma] with tolerance 1e-6 and
at most 100 iterations of the root of the characteristic function. -/
noncomputable def affineLambdaSpec (k sigma : ℝ) : ℝ :=
  bisectLoop (charF k sigma) 1e-6 100 0 sigma 0 / sigma

/-- Spec side rendering of the affine cost formula of claim C2:
k^2 sigma^2 (1 - lambda)^2 + sigma^2 lambda^2 / (1 + sigma^2 lambda^2). -/
noncomputable def affineCostSpec (k sigma : ℝ) : ℝ :=
  k ^ 2 * sigma ^ 2 * (1 - affineLambdaSpec k sigma) ^ 2 +
    sigma ^ 2 * affineLambdaSpec k sigma ^ 2 / (1 + sigma ^ 2 * affineLambdaSpec k sigma ^ 2)

/-- Spec side rendering of the nonlinear cost of claim C4:
2 k^2 sigma^2 (1 - sqrt(2/pi)) plus, for sigma different from 0,
sigma^2 exp(-sigma^2/2) times the Simpson quadrature with n = 200 over
[-10, 10] of exp(-y^2/2)/cosh(sigma y). -/
noncomputable def nonlinCostSpec (k sigma : ℝ) : ℝ :=
  2 * k ^ 2 * sigma ^ 2 * (1 - Real.sqrt (2 / Real.pi)) +
    sigma ^ 2 * Real.exp (-sigma ^ 2 / 2) *
      integrate (fun y => Real.exp (-y ^ 2 / 2) / Real.cosh (sigma * y)) (-10) 10 200

/-- Spec side standard normal density of claim C3. -/
noncomputable def phiSpec (z : ℝ) : ℝ :=
  1 / Real.sqrt (2 * Real.pi) * Real.exp (-z ^ 2 / 2)

/-- Spec side rendering of Vk of claim C3: the value of
a maps to k^2 (a - xi)^2 + h(a) at the point returned by golden section
search over [-20, 20] with tolerance 1e-4. -/
noncomputable def VkSpec (xi k : ℝ) : ℝ :=
  (fun a => k ^ 2 * (a - xi) ^ 2 + calculateH a)
    (goldenSectionSearch (fun a => k ^ 2 * (a - xi) ^ 2 + calculateH a) (-20) 20 1e-4)

/-- Spec side rendering of the lower bound of claim C3:
2 times the Simpson quadrature with n = 50 over [0, 5] of
phi(z) * Vk(sigma z, k). -/
noncomputable def lowerBoundSpec (k sigma : ℝ) : ℝ :=
  2 * integrate (fun z => phiSpec z * VkSpec (sigma * z) k) 0 5 50

/-- A cubic polynomial with coefficients c0, c1, c2, c3 (claim C8). -/
noncomputable def cubicFun (c0 c1 c2 c3 : ℝ) : ℝ → ℝ :=
  fun x => c0 + c1 * x + c2 * x ^ 2 + c3 * x ^ 3

/-- The antiderivative of the cubic polynomial, used to state exactness of
Simpson quadrature on cubics. -/
noncomputable def cubicPrim (c0 c1 c2 c3 x : ℝ) : ℝ :=
  c0 * x + c1 * x ^ 2 / 2 + c2 * x ^ 3 / 3 + c3 * x ^ 4 / 4

/-- Simpson weights are nonnegative. -/
theorem simpson_weight_nonneg (i : ℕ) : (0 : ℝ) ≤ (if i % 2 = 0 then 2 else 4) := by
  split <;> norm_num

/-- The quadrature of a pointwise nonnegative integrand over an ordered
interval is nonnegative. -/
theorem integrate_nonneg (f : ℝ → ℝ) (lo hi : ℝ) (n : ℕ) (hf : ∀ x, 0 ≤ f x)
    (hle : lo ≤ hi) : 0 ≤ integrate f lo hi n := by
  unfold integrate
  have hh : 0 ≤ (hi - lo) / n := by
    apply div_nonneg (by linarith) (Nat.cast_nonneg n)
  have hsum : 0 ≤ ∑ i ∈ Finset.Ico 1 n,
      f (lo + i * ((hi - lo) / n)) * (if i % 2 = 0 then (2 : ℝ) else 4) := by
    apply Finset.sum_nonneg
    intro i _
    exact mul_nonneg (hf _) (simpson_weight_nonneg i)
  have h0 : 0 ≤ f lo + f hi + ∑ i ∈ Finset.Ico 1 n,
      f (lo + i * ((hi - lo) / n)) * (if i % 2 = 0 then (2 : ℝ) else 4) := by
    have := hf lo
    have := hf hi
    linarith
  positivity

/-- Sum of the interior Simpson weights for an even subdivision count. -/
theorem simpson_weight_sum (m : ℕ) (hm : 1 ≤ m) :
    ∑ i ∈ Finset.Ico 1 (2 * m), (if i % 2 = 0 then (2 : ℝ) else 4) = 6 * m - 2 := by
  induction m, hm using Nat.le_induction with
  | base =>
    norm_num [Finset.sum_Ico_eq_sum_range]
  | succ m hm ih =>
    have h2 : 2 * (m + 1) = (2 * m + 1) + 1 := by ring
    rw [h2, Finset.sum_Ico_succ_top (by omega), Finset.sum_Ico_succ_top (by omega), ih]
    have he : (2 * m) % 2 = 0 := by omega
    have ho : ¬((2 * m + 1) % 2 = 0) := by omega
    rw [if_pos he, if_neg ho]
    push_cast
    ring

/-- The quadrature of an integrand bounded above by a constant, over an
ordered interval with an even subdivision count, is at most the constant
times the interval length. -/
theorem integrate_le_const (f : ℝ → ℝ) (c lo hi : ℝ) (m : ℕ) (hm : 1 ≤ m)
    (hf : ∀ x, f x ≤ c) (hle : lo ≤ hi) :
    integrate f lo hi (2 * m) ≤ c * (hi - lo) := by
  unfold integrate
  have hh : 0 ≤ (hi - lo) / (2 * m : ℕ) := by
    apply div_nonneg (by linarith) (Nat.cast_nonneg _)
  have hsum : ∑ i ∈ Finset.Ico 1 (2 * m),
        f (lo + i * ((hi - lo) / (2 * m : ℕ))) * (if i % 2 = 0 then (2 : ℝ) else 4)
      ≤ ∑ i ∈ Finset.Ico 1 (2 * m), c * (if i % 2 = 0 then (2 : ℝ) else 4) := by
    apply Finset.sum_le_sum
    intro i _
    exact mul_le_mul_of_nonneg_right (hf _) (simpson_weight_nonneg i)
  have hw : ∑ i ∈ Finset.Ico 1 (2 * m), c * (if i % 2 = 0 then (2 : ℝ) else 4)
      = c * (6 * m - 2) := by
    rw [← Finset.mul_sum, simpson_weight_sum m hm]
  have htot : f lo + f hi + ∑ i ∈ Finset.Ico 1 (2 * m),
        f (lo + i * ((hi - lo) / (2 * m : ℕ))) * (if i % 2 = 0 then (2 : ℝ) else 4)
      ≤ 6 * m * c := by
    have h1 := hf lo
    have h2 := hf hi
    have := hsum
    rw [hw] at this
    linarith
  calc (f lo + f hi + ∑ i ∈ Finset.Ico 1 (2 * m),
        f (lo + i * ((hi - lo) / (2 * m : ℕ))) * (if i % 2 = 0 then (2 : ℝ) else 4)) *
          ((hi - lo) / (2 * m : ℕ)) / 3
      ≤ 6 * m * c * ((hi - lo) / (2 * m : ℕ)) / 3 := by
        apply div_le_div_of_nonneg_right ?_ (by norm_num)
        exact mul_le_mul_of_nonneg_right htot hh
    _ = c * (hi - lo) := by
        have hm0 : ((2 * m : ℕ) : ℝ) ≠ 0 := Nat.cast_ne_zero.mpr (by omega)
        field_simp
        ring

/-- The auxiliary function h is everywhere nonnegative. -/
theorem calculateH_nonneg (a : ℝ) : 0 ≤ calculateH a := by
  unfold calculateH
  split
  · exact le_refl 0
  · have hI : 0 ≤ integrate (fun y => Real.exp (-0.5 * (y * y)) / Real.cosh (a * y)) (-10) 10 200 := by
      apply integrate_nonneg _ _ _ _ _ (by norm_num)
      intro x
      exact div_nonneg (Real.exp_pos _).le (Real.cosh_pos _).le
    exact mul_nonneg (mul_nonneg (mul_self_nonneg a) (Real.exp_pos _).le) hI

/-- The bisection loop stays inside the initial bracket: whenever the bracket
is ordered and the threaded midpoint lies inside it, so does the result. -/
theorem bisectLoop_mem (f : ℝ → ℝ) (tol : ℝ) :
    ∀ (fuel : ℕ) (low high mid0 : ℝ), low ≤ high → low ≤ mid0 → mid0 ≤ high →
      low ≤ bisectLoop f tol fuel low high mid0 ∧ bisectLoop f tol fuel low high mid0 ≤ high := by
  intro fuel
  induction fuel with
  | zero =>
    intro low high mid0 _ h1 h2
    exact ⟨h1, h2⟩
  | succ fuel ih =>
    intro low high mid0 hlh _ _
    have hml : low ≤ (low + high) / 2 := by linarith
    have hmh : (low + high) / 2 ≤ high := by linarith
    unfold bisectLoop
    split
    · exact ⟨hml, hmh⟩
    · split
      · have h := ih low ((low + high) / 2) ((low + high) / 2) hml hml le_rfl
        exact ⟨h.1, h.2.trans hmh⟩
      · have h := ih ((low + high) / 2) high ((low + high) / 2) hmh le_rfl hmh
        exact ⟨hml.trans h.1, h.2⟩

/-- With a strictly ordered bracket of nonnegative lower end, positive upper
end, and a positive threaded midpoint, the bisection loop returns a positive
value. -/
theorem bisectLoop_pos (f : ℝ → ℝ) (tol : ℝ) :
    ∀ (fuel : ℕ) (low high mid0 : ℝ), 0 ≤ low → 0 < high → low < high → 0 < mid0 →
      0 < bisectLoop f tol fuel low high mid0 := by
  intro fuel
  induction fuel with
  | zero =>
    intro low high mid0 _ _ _ h
    exact h
  | succ fuel ih =>
    intro low high mid0 h0 hh hlh _
    have hmid : 0 < (low + high) / 2 := by linarith
    have hml : low < (low + high) / 2 := by linarith
    have hmh : (low + high) / 2 < high := by linarith
    unfold bisectLoop
    split
    · exact hmid
    · split
      · exact ih low ((low + high) / 2) ((low + high) / 2) h0 hmid hml hmid
      · exact ih ((low + high) / 2) high ((low + high) / 2) hmid.le hh hmh hmid

/-- After at least one iteration on a strictly ordered bracket with
nonnegative lower end, the bisection loop returns a positive value, whatever
midpoint was threaded in (the source starts the loop with mid = 0). -/
theorem bisectLoop_pos_succ (f : ℝ → ℝ) (tol : ℝ) (fuel : ℕ) (low high mid0 : ℝ)
    (h0 : 0 ≤ low) (hh : 0 < high) (hlh : low < high) :
    0 < bisectLoop f tol (fuel + 1) low high mid0 := by
  have hmid : 0 < (low + high) / 2 := by linarith
  have hml : low < (low + high) / 2 := by linarith
  have hmh : (low + high) / 2 < high := by linarith
  unfold bisectLoop
  split
  · exact hmid
  · split
    · exact bisectLoop_pos f tol fuel low ((low + high) / 2) ((low + high) / 2) h0 hmid hml hmid
    · exact bisectLoop_pos f tol fuel ((low + high) / 2) high ((low + high) / 2) hmid.le hh hmh hmid

/-- After at least one iteration on a strictly ordered bracket, the bisection
loop returns a value strictly below the upper end of the bracket. -/
theorem bisectLoop_lt_high (f : ℝ → ℝ) (tol : ℝ) :
    ∀ (fuel : ℕ) (low high mid0 : ℝ), low < high →
      bisectLoop f tol (fuel + 1) low high mid0 < high := by
  intro fuel
  induction fuel with
  | zero =>
    intro low high mid0 hlh
    have hml : low ≤ (low + high) / 2 := by linarith
    have hmh : (low + high) / 2 < high := by linarith
    unfold bisectLoop
    split
    · exact hmh
    · split
      · exact hmh
      · exact hmh
  | succ fuel ih =>
    intro low high mid0 hlh
    have hml : low ≤ (low + high) / 2 := by linarith
    have hmlt : low < (low + high) / 2 := by linarith
    have hmh : (low + high) / 2 < high := by linarith
    unfold bisectLoop
    split
    · exact hmh
    · split
      · have h := bisectLoop_mem f tol (fuel + 1) low ((low + high) / 2) ((low + high) / 2)
          hml hml le_rfl
        exact h.2.trans_lt hmh
      · exact ih ((low + high) / 2) high ((low + high) / 2) hmh

/-- The golden ratio factor is positive. -/
theorem GR_pos : 0 < GR := by
  unfold GR
  have h : (1 : ℝ) < Real.sqrt 5 := by
    rw [show (1 : ℝ) = Real.sqrt 1 by rw [Real.sqrt_one]]
    exact Real.sqrt_lt_sqrt (by norm_num) (by norm_num)
  linarith

/-- The golden ratio factor is below one. -/
theorem GR_lt_one : GR < 1 := by
  unfold GR
  have h : Real.sqrt 5 < 3 := (Real.sqrt_lt' (by norm_num)).mpr (by norm_num)
  linarith

/-- One golden section pass contracts the bracket width exactly by GR. -/
theorem gssStep_width (f : ℝ → ℝ) (a b : ℝ) :
    (gssStep f a b).2 - (gssStep f a b).1 = GR * (b - a) := by
  unfold gssStep
  split <;> simp

/-- With tolerance 0 and a nondegenerate bracket the golden section loop
never exits: no amount of fuel makes it return. -/
theorem gssLoopO_zero_tol_none (f : ℝ → ℝ) :
    ∀ (n : ℕ) (a b : ℝ), a < b → gssLoopO f 0 n a b = none := by
  intro n
  induction n with
  | zero =>
    intro a b hab
    unfold gssLoopO
    rw [if_pos]
    rw [abs_of_pos (by linarith)]
    linarith
  | succ n ih =>
    intro a b hab
    unfold gssLoopO
    rw [if_pos]
    · apply ih
      have h := gssStep_width f a b
      have := GR_pos
      nlinarith
    · rw [abs_of_pos (by linarith)]
      linarith

/-- If the initial width scaled down by GR to the given fuel is within the
tolerance, the golden section loop exits within that fuel. -/
theorem gssLoopO_isSome_of_width (f : ℝ → ℝ) (tol : ℝ) :
    ∀ (n : ℕ) (a b : ℝ), |b - a| * GR ^ n ≤ tol → (gssLoopO f tol n a b).isSome = true := by
  intro n
  induction n with
  | zero =>
    intro a b h
    rw [pow_zero, mul_one] at h
    unfold gssLoopO
    rw [if_neg (by linarith)]
    rfl
  | succ n ih =>
    intro a b h
    unfold gssLoopO
    by_cases hc : |b - a| > tol
    · rw [if_pos hc]
      apply ih
      have hw : (gssStep f a b).2 - (gssStep f a b).1 = GR * (b - a) := gssStep_width f a b
      have habs : |(gssStep f a b).2 - (gssStep f a b).1| = GR * |b - a| := by
        rw [hw, abs_mul, abs_of_pos GR_pos]
      rw [habs]
      calc GR * |b - a| * GR ^ n = |b - a| * GR ^ (n + 1) := by ring
        _ ≤ tol := h
    · rw [if_neg hc]
      rfl

/-- C5 counterexample: the claim that the unimodal minimizer terminates for
every input function and every tolerance after a fixed iteration cap fails on
the code: with integrand x maps to x, bracket [0, 1] and tolerance 0, the
goldenSectionSearch while loop never exits, whatever iteration budget it is
granted. -/
theorem goldenSection_no_iteration_cap :
    ¬∃ fuel, (gssLoopO (fun x => x) 0 fuel 0 1).isSome = true := by
  rintro ⟨n, hn⟩
  rw [gssLoopO_zero_tol_none (fun x => x) n 0 1 (by norm_num)] at hn
  simp at hn

/-- C5 amended: the bisection root finder runs a hard capped loop (100
iterations, made explicit as fuel in bisectLoop) and returns the last
midpoint unconditionally, but the golden section minimizer has no iteration
cap; its loop exits only once the bracket width is at most tol, which happens
for every positive tolerance because the width contracts by the factor GR
each pass. -/
theorem goldenSection_terminates_of_pos_tol (f : ℝ → ℝ) (a b tol : ℝ) (h : 0 < tol) :
    ∃ fuel, (gssLoopO f tol fuel a b).isSome = true := by
  by_cases hw : |b - a| ≤ tol
  · refine ⟨0, gssLoopO_isSome_of_width f tol 0 a b ?_⟩
    rw [pow_zero, mul_one]
    exact hw
  · push_neg at hw
    have hpos : 0 < |b - a| := h.trans hw
    obtain ⟨n, hn⟩ := exists_pow_lt_of_lt_one (div_pos h hpos) GR_lt_one
    refine ⟨n, gssLoopO_isSome_of_width f tol n a b ?_⟩
    have h2 : GR ^ n * |b - a| < tol := (lt_div_iff₀ hpos).mp hn
    calc |b - a| * GR ^ n = GR ^ n * |b - a| := by ring
      _ ≤ tol := h2.le

/-- Witness for the amended C5 at a concrete input. -/
theorem goldenSection_terminates_witness :
    (0 : ℝ) < 1 ∧ ∃ fuel, (gssLoopO (fun x => x) 1 fuel 0 1).isSome = true :=
  ⟨by norm_num, goldenSection_terminates_of_pos_tol (fun x => x) 0 1 1 (by norm_num)⟩

/-- C9: the auxiliary function is even, h(a) = h(-a) for every real a, and
the hard coded boundary case gives h(0) = 0. -/
theorem calculateH_even :
    (∀ a : ℝ, calculateH a = calculateH (-a)) ∧ calculateH 0 = 0 := by
  constructor
  · intro a
    by_cases h : a = 0
    · subst h
      norm_num
    · have h2 : (-a) ≠ 0 := neg_ne_zero.mpr h
      unfold calculateH
      rw [if_neg h, if_neg h2]
      have hint : (fun y => Real.exp (-0.5 * (y * y)) / Real.cosh (-a * y))
          = fun y => Real.exp (-0.5 * (y * y)) / Real.cosh (a * y) := by
        funext y
        rw [show -a * y = -(a * y) by ring, Real.cosh_neg]
      rw [hint]
      ring_nf
  · unfold calculateH
    rw [if_pos rfl]

/-- The characteristic function takes value -sigma at 0. -/
theorem charF_at_zero (k sigma : ℝ) : charF k sigma 0 = -sigma := by
  unfold charF
  ring

/-- The characteristic function takes value sigma/k^2 at sigma. -/
theorem charF_at_sigma (k sigma : ℝ) : charF k sigma sigma = sigma / (k * k) := by
  unfold charF
  ring

/-- For positive parameters the product f(0)*f(sigma) is negative, so the
no bracket guard of solveAffineLambda never fires. -/
theorem charF_prod_neg (k sigma : ℝ) (hk : 0 < k) (hs : 0 < sigma) :
    charF k sigma 0 * charF k sigma sigma < 0 := by
  rw [charF_at_zero, charF_at_sigma]
  have hkk : 0 < k * k := mul_pos hk hk
  have h : 0 < sigma / (k * k) := div_pos hs hkk
  nlinarith

/-- The guard of solveAffineLambda is false for positive parameters. -/
theorem charF_no_bracket (k sigma : ℝ) (hk : 0 < k) (hs : 0 < sigma) :
    ¬(charF k sigma 0 * charF k sigma sigma > 0) := by
  have := charF_prod_neg k sigma hk hs
  linarith

/-- For positive parameters solveAffineLambda is the bisection output over
[0, sigma] divided by sigma. -/
theorem solveAffineLambda_eq (k sigma : ℝ) (hk : 0 < k) (hs : 0 < sigma) :
    solveAffineLambda k sigma = bisectLoop (charF k sigma) 1e-6 100 0 sigma 0 / sigma := by
  unfold solveAffineLambda
  rw [if_neg (charF_no_bracket k sigma hk hs)]

/-- C6: for positive k and sigma, whenever the characteristic function shows
no sign change over the bracket (f(0)*f(sigma) > 0), solveAffineLambda
returns exactly the sentinel 0; moreover for such parameters that guard is in
fact never satisfiable, since the product is always negative. -/
theorem solveAffineLambda_sentinel (k sigma : ℝ) (hk : 0 < k) (hs : 0 < sigma) :
    (charF k sigma 0 * charF k sigma sigma > 0 → solveAffineLambda k sigma = 0) ∧
      charF k sigma 0 * charF k sigma sigma < 0 := by
  constructor
  · intro h
    unfold solveAffineLambda
    rw [if_pos h]
  · exact charF_prod_neg k sigma hk hs

/-- Witness for C6 at a concrete input. -/
theorem solveAffineLambda_sentinel_witness :
    (0 : ℝ) < 1 ∧ (0 : ℝ) < 1 ∧
      ((charF 1 1 0 * charF 1 1 1 > 0 → solveAffineLambda 1 1 = 0) ∧
        charF 1 1 0 * charF 1 1 1 < 0) :=
  ⟨by norm_num, by norm_num, solveAffineLambda_sentinel 1 1 (by norm_num) (by norm_num)⟩

/-- C2: for positive k and sigma the affine cost returned by calculateCosts
is k^2 sigma^2 (1 - lambda)^2 + sigma^2 lambda^2 / (1 + sigma^2 lambda^2)
with lambda = t/sigma, t the bisection approximation (bracket [0, sigma],
tolerance 1e-6, at most 100 iterations) of the root of the characteristic
function (t - sigma)(1 + t^2)^2 + t/k^2. -/
theorem affineCost_eq_spec (k sigma : ℝ) (hk : 0 < k) (hs : 0 < sigma) :
    (calculateCosts k sigma).lambda = affineLambdaSpec k sigma ∧
      (calculateCosts k sigma).affineCost = affineCostSpec k sigma := by
  have hl : solveAffineLambda k sigma = affineLambdaSpec k sigma :=
    solveAffineLambda_eq k sigma hk hs
  constructor
  · exact hl
  · show k * k * sigma * sigma * (1 - solveAffineLambda k sigma) ^ 2 +
        sigma * sigma * solveAffineLambda k sigma * solveAffineLambda k sigma /
          (1 + sigma * sigma * solveAffineLambda k sigma * solveAffineLambda k sigma)
      = affineCostSpec k sigma
    rw [hl]
    unfold affineCostSpec
    ring

/-- Witness for C2 at a concrete input. -/
theorem affineCost_eq_spec_witness :
    (0 : ℝ) < 1 ∧ (0 : ℝ) < 1 ∧
      ((calculateCosts 1 1).lambda = affineLambdaSpec 1 1 ∧
        (calculateCosts 1 1).affineCost = affineCostSpec 1 1) :=
  ⟨by norm_num, by norm_num, affineCost_eq_spec 1 1 (by norm_num) (by norm_num)⟩

/-- C4: for positive k and sigma the nonlinear cost returned by
calculateCosts equals 2 k^2 sigma^2 (1 - sqrt(2/pi)) + h(sigma), with
h(sigma) expanded through its nonzero branch as sigma^2 exp(-sigma^2/2)
times the Simpson quadrature with n = 200 over [-10, 10] of
exp(-y^2/2)/cosh(sigma y). -/
theorem nonlinCost_eq_spec (k sigma : ℝ) (hk : 0 < k) (hs : 0 < sigma) :
    (calculateCosts k sigma).nonlinCost = nonlinCostSpec k sigma := by
  show 2 * k * k * sigma * sigma * (1 - Real.sqrt (2 / Real.pi)) + calculateH sigma
      = nonlinCostSpec k sigma
  unfold nonlinCostSpec calculateH
  rw [if_neg hs.ne']
  have hi : (fun y => Real.exp (-0.5 * (y * y)) / Real.cosh (sigma * y))
      = fun y => Real.exp (-y ^ 2 / 2) / Real.cosh (sigma * y) := by
    funext y
    rw [show -0.5 * (y * y) = -y ^ 2 / 2 by ring]
  rw [hi, show -0.5 * (sigma * sigma) = -sigma ^ 2 / 2 by ring]
  ring

/-- Witness for C4 at a concrete input. -/
theorem nonlinCost_eq_spec_witness :
    (0 : ℝ) < 1 ∧ (0 : ℝ) < 1 ∧ (calculateCosts 1 1).nonlinCost = nonlinCostSpec 1 1 :=
  ⟨by norm_num, by norm_num, nonlinCost_eq_spec 1 1 (by norm_num) (by norm_num)⟩

/-- C3: for positive k and sigma the lower bound returned by calculateCosts
equals 2 times the Simpson quadrature with n = 50 over [0, 5] of
phi(z) Vk(sigma z, k), with phi the standard normal density and Vk(xi, k)
the value of a maps to k^2(a - xi)^2 + h(a) at the point returned by golden
section search over [-20, 20] with tolerance 1e-4. -/
theorem lowerBound_eq_spec (k sigma : ℝ) (hk : 0 < k) (hs : 0 < sigma) :
    (calculateCosts k sigma).lowerBound = lowerBoundSpec k sigma := by
  show calculateLowerBound k sigma = lowerBoundSpec k sigma
  unfold calculateLowerBound lowerBoundSpec
  have hVk : ∀ xi, calculateVk xi k = VkSpec xi k := by
    intro xi
    unfold calculateVk VkSpec
    have hfn : (fun a => k * k * (a - xi) ^ 2 + calculateH a)
        = fun a => k ^ 2 * (a - xi) ^ 2 + calculateH a := by
      funext a
      ring
    rw [hfn]
  have hphi : ∀ z : ℝ, phi z = phiSpec z := by
    intro z
    unfold phi phiSpec
    rw [show -0.5 * (z * z) = -z ^ 2 / 2 by ring]
  have hint : (fun z => phi z * calculateVk (sigma * z) k)
      = fun z => phiSpec z * VkSpec (sigma * z) k := by
    funext z
    rw [hphi z, hVk (sigma * z)]
  rw [hint]

/-- Witness for C3 at a concrete input. -/
theorem lowerBound_eq_spec_witness :
    (0 : ℝ) < 1 ∧ (0 : ℝ) < 1 ∧ (calculateCosts 1 1).lowerBound = lowerBoundSpec 1 1 :=
  ⟨by norm_num, by norm_num, lowerBound_eq_spec 1 1 (by norm_num) (by norm_num)⟩

/-- The optimal gain lambda lies in [0, 1] for positive parameters: the
sentinel branch gives 0 and the bisection branch stays in [0, sigma]. -/
theorem solveAffineLambda_mem (k sigma : ℝ) (hs : 0 < sigma) :
    0 ≤ solveAffineLambda k sigma ∧ solveAffineLambda k sigma ≤ 1 := by
  unfold solveAffineLambda
  split
  · norm_num
  · have h := bisectLoop_mem (charF k sigma) 1e-6 100 0 sigma 0 hs.le le_rfl hs.le
    constructor
    · exact div_nonneg h.1 hs.le
    · rw [div_le_one hs]
      exact h.2

/-- The standard normal density is nonnegative. -/
theorem phi_nonneg (x : ℝ) : 0 ≤ phi x := by
  unfold phi
  have h1 : 0 ≤ 1 / Real.sqrt (2 * Real.pi) := by positivity
  exact mul_nonneg h1 (Real.exp_pos _).le

/-- The pointwise minimum cost Vk is nonnegative whatever point the golden
section search returns. -/
theorem calculateVk_nonneg (xi k : ℝ) : 0 ≤ calculateVk xi k := by
  unfold calculateVk
  have h := calculateH_nonneg
    (goldenSectionSearch (fun a => k * k * (a - xi) ^ 2 + calculateH a) (-20) 20 1e-4)
  nlinarith [mul_self_nonneg k,
    sq_nonneg (goldenSectionSearch (fun a => k * k * (a - xi) ^ 2 + calculateH a) (-20) 20 1e-4 - xi),
    mul_nonneg (mul_self_nonneg k)
      (sq_nonneg (goldenSectionSearch (fun a => k * k * (a - xi) ^ 2 + calculateH a) (-20) 20 1e-4 - xi))]

/-- C7: for positive k and sigma, the 4-tuple returned by calculateCosts has
nonnegative affineCost, nonlinCost and lowerBound, and lambda lies in [0, 1]
(in this real number model every value is automatically finite). -/
theorem calculateCosts_range_bounds (k sigma : ℝ) (hk : 0 < k) (hs : 0 < sigma) :
    0 ≤ (calculateCosts k sigma).affineCost ∧ 0 ≤ (calculateCosts k sigma).nonlinCost ∧
      0 ≤ (calculateCosts k sigma).lowerBound ∧
      0 ≤ (calculateCosts k sigma).lambda ∧ (calculateCosts k sigma).lambda ≤ 1 := by
  have hlam := solveAffineLambda_mem k sigma hs
  refine ⟨?_, ?_, ?_, hlam.1, hlam.2⟩
  · show 0 ≤ k * k * sigma * sigma * (1 - solveAffineLambda k sigma) ^ 2 +
        sigma * sigma * solveAffineLambda k sigma * solveAffineLambda k sigma /
          (1 + sigma * sigma * solveAffineLambda k sigma * solveAffineLambda k sigma)
    have h1 : 0 ≤ k * k * sigma * sigma * (1 - solveAffineLambda k sigma) ^ 2 :=
      mul_nonneg (mul_nonneg (mul_nonneg (mul_self_nonneg k) hs.le) hs.le) (sq_nonneg _)
    have hnum : 0 ≤ sigma * sigma * solveAffineLambda k sigma * solveAffineLambda k sigma := by
      nlinarith [mul_self_nonneg sigma, mul_self_nonneg (solveAffineLambda k sigma)]
    have hden : 0 < 1 + sigma * sigma * solveAffineLambda k sigma * solveAffineLambda k sigma := by
      nlinarith
    have h2 := div_nonneg hnum hden.le
    linarith
  · show 0 ≤ 2 * k * k * sigma * sigma * (1 - Real.sqrt (2 / Real.pi)) + calculateH sigma
    have hsq : Real.sqrt (2 / Real.pi) ≤ 1 := by
      rw [Real.sqrt_le_one]
      rw [div_le_one Real.pi_pos]
      exact Real.two_le_pi
    have hfirst : 0 ≤ 2 * k * k * sigma * sigma * (1 - Real.sqrt (2 / Real.pi)) := by
      have h1 : (0 : ℝ) ≤ 1 - Real.sqrt (2 / Real.pi) := by linarith
      nlinarith [mul_self_nonneg k, mul_self_nonneg sigma,
        mul_nonneg (mul_self_nonneg k) (mul_self_nonneg sigma)]
    have := calculateH_nonneg sigma
    linarith
  · show 0 ≤ calculateLowerBound k sigma
    unfold calculateLowerBound
    have hint : 0 ≤ integrate (fun z => phi z * calculateVk (sigma * z) k) 0 5 50 := by
      apply integrate_nonneg _ _ _ _ _ (by norm_num)
      intro x
      exact mul_nonneg (phi_nonneg x) (calculateVk_nonneg (sigma * x) k)
    linarith

/-- Witness for C7 at a concrete input. -/
theorem calculateCosts_range_bounds_witness :
    (0 : ℝ) < 1 ∧ (0 : ℝ) < 1 ∧
      (0 ≤ (calculateCosts 1 1).affineCost ∧ 0 ≤ (calculateCosts 1 1).nonlinCost ∧
        0 ≤ (calculateCosts 1 1).lowerBound ∧
        0 ≤ (calculateCosts 1 1).lambda ∧ (calculateCosts 1 1).lambda ≤ 1) :=
  ⟨by norm_num, by norm_num, calculateCosts_range_bounds 1 1 (by norm_num) (by norm_num)⟩

/-- For any gain in [0, 1] the affine cost expression at k = 0.2, sigma = 5
is at least one half. -/
theorem affine_half_le (l : ℝ) (h0 : 0 ≤ l) (h1 : l ≤ 1) :
    (1 / 2 : ℝ) ≤ (0.2 : ℝ) * 0.2 * 5 * 5 * (1 - l) ^ 2 + 5 * 5 * l * l / (1 + 5 * 5 * l * l) := by
  have hden : (0 : ℝ) < 1 + 5 * 5 * l * l := by nlinarith [mul_self_nonneg l]
  rcases le_or_lt l (1 / 5) with h | h
  · have hsq : (16 / 25 : ℝ) ≤ (1 - l) ^ 2 := by nlinarith
    have hdiv : 0 ≤ 5 * 5 * l * l / (1 + 5 * 5 * l * l) := by
      apply div_nonneg _ hden.le
      nlinarith [mul_self_nonneg l]
    nlinarith
  · have hdiv : (1 / 2 : ℝ) ≤ 5 * 5 * l * l / (1 + 5 * 5 * l * l) := by
      rw [le_div_iff₀ hden]
      nlinarith
    nlinarith [sq_nonneg (1 - l)]

/-- A numeric lower bound on sqrt(2/pi). -/
theorem sqrt_two_div_pi_ge : (0.79 : ℝ) ≤ Real.sqrt (2 / Real.pi) := by
  rw [Real.le_sqrt' (by norm_num)]
  rw [le_div_iff₀ Real.pi_pos]
  nlinarith [Real.pi_lt_d2]

/-- A numeric upper bound on exp(-12.5). -/
theorem exp_neg_twelve_half_le : Real.exp (-12.5) ≤ 1 / 150000 := by
  have h1 : Real.exp (-12.5) ≤ Real.exp (-12) := Real.exp_le_exp.mpr (by norm_num)
  have he : Real.exp 12 = Real.exp 1 ^ 12 := by
    rw [← Real.exp_nat_mul]
    norm_num
  have h2 : (2.7 : ℝ) ^ 12 ≤ Real.exp 12 := by
    rw [he]
    exact pow_le_pow_left₀ (by norm_num) (by linarith [Real.exp_one_gt_d9]) 12
  have h3 : (150000 : ℝ) ≤ 2.7 ^ 12 := by norm_num
  have h4 : (150000 : ℝ) ≤ Real.exp 12 := h3.trans h2
  have h5 : Real.exp (-12) ≤ 1 / 150000 := by
    rw [Real.exp_neg, inv_eq_one_div]
    exact one_div_le_one_div_of_le (by norm_num) h4
  linarith

/-- The h integrand is pointwise at most 1. -/
theorem calculateH_integrand_le_one (a x : ℝ) :
    Real.exp (-0.5 * (x * x)) / Real.cosh (a * x) ≤ 1 := by
  rw [div_le_one (Real.cosh_pos _)]
  have h1 : Real.exp (-0.5 * (x * x)) ≤ 1 :=
    Real.exp_le_one_iff.mpr (by nlinarith [mul_self_nonneg x])
  linarith [Real.one_le_cosh (a * x)]

/-- An explicit numeric bound on the auxiliary function at sigma = 5. -/
theorem calculateH_five_le : calculateH 5 ≤ 500 * Real.exp (-12.5) := by
  unfold calculateH
  rw [if_neg (by norm_num : (5 : ℝ) ≠ 0)]
  have h200 : (200 : ℕ) = 2 * 100 := by norm_num
  have hIle : integrate (fun y => Real.exp (-0.5 * (y * y)) / Real.cosh (5 * y)) (-10) 10 200
      ≤ 1 * (10 - (-10)) := by
    rw [h200]
    exact integrate_le_const _ 1 (-10) 10 100 (by norm_num)
      (fun x => calculateH_integrand_le_one 5 x) (by norm_num)
  have hIge : 0 ≤ integrate (fun y => Real.exp (-0.5 * (y * y)) / Real.cosh (5 * y)) (-10) 10 200 := by
    apply integrate_nonneg _ _ _ _ _ (by norm_num)
    intro x
    exact div_nonneg (Real.exp_pos _).le (Real.cosh_pos _).le
  have hc : (-0.5 : ℝ) * (5 * 5) = -12.5 := by norm_num
  rw [hc]
  have hexp : (0 : ℝ) < Real.exp (-12.5) := Real.exp_pos _
  nlinarith

/-- C1: at the canonical parameters k = 0.2, sigma = 5 the engine satisfies
the counterexample condition: the nonlinear cost is strictly below the
affine cost, and lambda is a (small) positive value strictly less than 1. -/
theorem counterexample_at_canonical :
    (calculateCosts 0.2 5).nonlinCost < (calculateCosts 0.2 5).affineCost ∧
      0 < (calculateCosts 0.2 5).lambda ∧ (calculateCosts 0.2 5).lambda < 1 := by
  have hfb : solveAffineLambda 0.2 5 = bisectLoop (charF 0.2 5) 1e-6 100 0 5 0 / 5 :=
    solveAffineLambda_eq 0.2 5 (by norm_num) (by norm_num)
  have h100 : (100 : ℕ) = 99 + 1 := by norm_num
  have hrpos : 0 < bisectLoop (charF 0.2 5) 1e-6 100 0 5 0 := by
    rw [h100]
    exact bisectLoop_pos_succ (charF 0.2 5) 1e-6 99 0 5 0 le_rfl (by norm_num) (by norm_num)
  have hrlt : bisectLoop (charF 0.2 5) 1e-6 100 0 5 0 < 5 := by
    rw [h100]
    exact bisectLoop_lt_high (charF 0.2 5) 1e-6 99 0 5 0 (by norm_num)
  have hlam_pos : 0 < solveAffineLambda 0.2 5 := by
    rw [hfb]
    exact div_pos hrpos (by norm_num)
  have hlam_lt : solveAffineLambda 0.2 5 < 1 := by
    rw [hfb, div_lt_one (by norm_num)]
    exact hrlt
  refine ⟨?_, hlam_pos, hlam_lt⟩
  have haff : (1 / 2 : ℝ) ≤ (calculateCosts 0.2 5).affineCost := by
    show (1 / 2 : ℝ) ≤ (0.2 : ℝ) * 0.2 * 5 * 5 * (1 - solveAffineLambda 0.2 5) ^ 2 +
        5 * 5 * solveAffineLambda 0.2 5 * solveAffineLambda 0.2 5 /
          (1 + 5 * 5 * solveAffineLambda 0.2 5 * solveAffineLambda 0.2 5)
    exact affine_half_le (solveAffineLambda 0.2 5) hlam_pos.le hlam_lt.le
  have hnl : (calculateCosts 0.2 5).nonlinCost ≤ 0.43 := by
    show 2 * (0.2 : ℝ) * 0.2 * 5 * 5 * (1 - Real.sqrt (2 / Real.pi)) + calculateH 5 ≤ 0.43
    have h1 := sqrt_two_div_pi_ge
    have h2 := calculateH_five_le
    have h3 := exp_neg_twelve_half_le
    nlinarith
  linarith

/-- C10: the lookup layer computes both indices as round((value - min)/step),
bounds checks them against the table dimensions, and for every (k, sigma)
whose computed index falls outside the table returns the all zero fallback
result instead of reading the table. -/
theorem lookup_out_of_range_fallback (data : List (List CostsResult))
    (kMeta sigmaMeta : AxisMeta) (k sigma : ℝ)
    (h : ¬(0 ≤ getKIndex kMeta k ∧ getKIndex kMeta k < (data.length : ℤ) ∧
        0 ≤ getSigmaIndex sigmaMeta sigma ∧
        getSigmaIndex sigmaMeta sigma < ((data.headD []).length : ℤ))) :
    appResults data kMeta sigmaMeta k sigma = ⟨0, 0, 0, 0, false⟩ ∧
      getKIndex kMeta k = ⌊(k - kMeta.min) / kMeta.step + 1 / 2⌋ ∧
      getSigmaIndex sigmaMeta sigma = ⌊(sigma - sigmaMeta.min) / sigmaMeta.step + 1 / 2⌋ := by
  refine ⟨?_, rfl, rfl⟩
  unfold appResults
  rw [if_neg h]

/-- Witness for C10: the empty table rejects every index. -/
theorem lookup_out_of_range_fallback_witness :
    ¬(0 ≤ getKIndex ⟨0, 1⟩ 0 ∧ getKIndex ⟨0, 1⟩ 0 < (([] : List (List CostsResult)).length : ℤ) ∧
        0 ≤ getSigmaIndex ⟨0, 1⟩ 0 ∧
        getSigmaIndex ⟨0, 1⟩ 0 < ((([] : List (List CostsResult)).headD []).length : ℤ)) ∧
      (appResults [] ⟨0, 1⟩ ⟨0, 1⟩ 0 0 = ⟨0, 0, 0, 0, false⟩ ∧
        getKIndex ⟨0, 1⟩ 0 = ⌊((0 : ℝ) - (AxisMeta.mk 0 1).min) / (AxisMeta.mk 0 1).step + 1 / 2⌋ ∧
        getSigmaIndex ⟨0, 1⟩ 0 = ⌊((0 : ℝ) - (AxisMeta.mk 0 1).min) / (AxisMeta.mk 0 1).step + 1 / 2⌋) := by
  have hno : ¬(0 ≤ getKIndex ⟨0, 1⟩ 0 ∧
      getKIndex ⟨0, 1⟩ 0 < (([] : List (List CostsResult)).length : ℤ) ∧
      0 ≤ getSigmaIndex ⟨0, 1⟩ 0 ∧
      getSigmaIndex ⟨0, 1⟩ 0 < ((([] : List (List CostsResult)).headD []).length : ℤ)) := by
    rintro ⟨-, h2, -, -⟩
    simp only [List.length_nil, Nat.cast_zero] at h2
    have hk0 : getKIndex ⟨0, 1⟩ 0 = 0 := by
      unfold getKIndex jsRound
      norm_num
    rw [hk0] at h2
    exact absurd h2 (by norm_num)
  exact ⟨hno, lookup_out_of_range_fallback [] ⟨0, 1⟩ ⟨0, 1⟩ 0 0 hno⟩

/-- Simple Simpson rule on one double panel is exact for cubics. -/
theorem simpson_panel (c0 c1 c2 c3 p h : ℝ) :
    h / 3 * (cubicFun c0 c1 c2 c3 p + 4 * cubicFun c0 c1 c2 c3 (p + h) +
        cubicFun c0 c1 c2 c3 (p + 2 * h))
      = cubicPrim c0 c1 c2 c3 (p + 2 * h) - cubicPrim c0 c1 c2 c3 p := by
  unfold cubicFun cubicPrim
  ring

/-- The interior weighted Simpson sum regroups into double panels. -/
theorem simpson_sum_split (f : ℝ → ℝ) (a h : ℝ) :
    ∀ m : ℕ, 1 ≤ m →
      f a + f (a + (2 * m : ℕ) * h) +
          ∑ i ∈ Finset.Ico 1 (2 * m), f (a + i * h) * (if i % 2 = 0 then (2 : ℝ) else 4)
        = ∑ j ∈ Finset.range m,
            (f (a + (2 * j : ℕ) * h) + 4 * f (a + (2 * j + 1 : ℕ) * h) +
              f (a + (2 * j + 2 : ℕ) * h)) := by
  intro m hm
  induction m, hm using Nat.le_induction with
  | base =>
    have h1 : Finset.Ico 1 (2 * 1) = {1} := by decide
    rw [h1, Finset.sum_singleton, Finset.sum_range_one]
    norm_num
    ring
  | succ m hm ih =>
    have h2 : 2 * (m + 1) = (2 * m + 1) + 1 := by ring
    rw [h2, Finset.sum_Ico_succ_top (by omega), Finset.sum_Ico_succ_top (by omega),
      Finset.sum_range_succ]
    have e1 : (if (2 * m) % 2 = 0 then (2 : ℝ) else 4) = 2 := if_pos (by omega)
    have e2 : (if (2 * m + 1) % 2 = 0 then (2 : ℝ) else 4) = 4 := if_neg (by omega)
    rw [e1, e2, show ((2 * m + 1) + 1 : ℕ) = 2 * m + 2 from by omega]
    linear_combination ih

/-- The exact interval integral of a cubic polynomial is the difference of
the antiderivative at the endpoints. -/
theorem cubic_intervalIntegral (c0 c1 c2 c3 a b : ℝ) :
    (∫ x in a..b, (c0 + c1 * x + c2 * x ^ 2 + c3 * x ^ 3))
      = cubicPrim c0 c1 c2 c3 b - cubicPrim c0 c1 c2 c3 a := by
  have i1 : IntervalIntegrable (fun x : ℝ => c0 + c1 * x) MeasureTheory.volume a b :=
    (Continuous.intervalIntegrable (by continuity) a b)
  have i2 : IntervalIntegrable (fun x : ℝ => c2 * x ^ 2) MeasureTheory.volume a b :=
    (Continuous.intervalIntegrable (by continuity) a b)
  have i3 : IntervalIntegrable (fun x : ℝ => c3 * x ^ 3) MeasureTheory.volume a b :=
    (Continuous.intervalIntegrable (by continuity) a b)
  have i0 : IntervalIntegrable (fun _ : ℝ => c0) MeasureTheory.volume a b :=
    intervalIntegrable_const
  have ic : IntervalIntegrable (fun x : ℝ => c1 * x) MeasureTheory.volume a b :=
    (Continuous.intervalIntegrable (by continuity) a b)
  rw [intervalIntegral.integral_add (i1.add i2) i3, intervalIntegral.integral_add i1 i2,
    intervalIntegral.integral_add i0 ic, intervalIntegral.integral_const,
    intervalIntegral.integral_const_mul, intervalIntegral.integral_const_mul,
    intervalIntegral.integral_const_mul, integral_id, integral_pow, integral_pow]
  unfold cubicPrim
  rw [smul_eq_mul]
  push_cast
  ring

/-- C8: on every cubic polynomial, every interval and every even subdivision
count of at least 2, the Simpson quadrature of src/mathUtils.ts agrees with
the exact analytical integral. -/
theorem integrate_exact_on_cubics (c0 c1 c2 c3 a b : ℝ) (n : ℕ) (hev : Even n)
    (hn2 : 2 ≤ n) (hab : a < b) :
    integrate (cubicFun c0 c1 c2 c3) a b n
      = ∫ x in a..b, (c0 + c1 * x + c2 * x ^ 2 + c3 * x ^ 3) := by
  obtain ⟨m, hm⟩ := hev
  have hn : n = 2 * m := by omega
  have hm1 : 1 ≤ m := by omega
  subst hn
  have hcast : ((2 * m : ℕ) : ℝ) ≠ 0 := Nat.cast_ne_zero.mpr (by omega)
  have hb : b = a + (2 * m : ℕ) * ((b - a) / (2 * m : ℕ)) := by
    field_simp
  rw [cubic_intervalIntegral]
  unfold integrate
  rw [show cubicFun c0 c1 c2 c3 b
      = cubicFun c0 c1 c2 c3 (a + (2 * m : ℕ) * ((b - a) / (2 * m : ℕ))) from by rw [← hb]]
  rw [simpson_sum_split (cubicFun c0 c1 c2 c3) a ((b - a) / ((2 * m : ℕ) : ℝ)) m hm1]
  rw [Finset.sum_mul, Finset.sum_div]
  have hstep : ∀ j ∈ Finset.range m,
      (cubicFun c0 c1 c2 c3 (a + (2 * j : ℕ) * ((b - a) / ((2 * m : ℕ) : ℝ))) +
          4 * cubicFun c0 c1 c2 c3 (a + (2 * j + 1 : ℕ) * ((b - a) / ((2 * m : ℕ) : ℝ))) +
          cubicFun c0 c1 c2 c3 (a + (2 * j + 2 : ℕ) * ((b - a) / ((2 * m : ℕ) : ℝ)))) *
          ((b - a) / ((2 * m : ℕ) : ℝ)) / 3
        = cubicPrim c0 c1 c2 c3 (a + (2 * (j + 1) : ℕ) * ((b - a) / ((2 * m : ℕ) : ℝ))) -
          cubicPrim c0 c1 c2 c3 (a + (2 * j : ℕ) * ((b - a) / ((2 * m : ℕ) : ℝ))) := by
    intro j _
    set s : ℝ := (b - a) / ((2 * m : ℕ) : ℝ) with hs
    have e1 : a + ((2 * j + 1 : ℕ) : ℝ) * s = a + ((2 * j : ℕ) : ℝ) * s + s := by
      push_cast
      ring
    have e2 : a + ((2 * j + 2 : ℕ) : ℝ) * s = a + ((2 * j : ℕ) : ℝ) * s + 2 * s := by
      push_cast
      ring
    have e3 : a + ((2 * (j + 1) : ℕ) : ℝ) * s = a + ((2 * j : ℕ) : ℝ) * s + 2 * s := by
      push_cast
      ring
    rw [e1, e2, e3]
    have hp := simpson_panel c0 c1 c2 c3 (a + ((2 * j : ℕ) : ℝ) * s) s
    linear_combination hp
  rw [Finset.sum_congr rfl hstep]
  rw [Finset.sum_range_sub
    (fun j => cubicPrim c0 c1 c2 c3 (a + (2 * j : ℕ) * ((b - a) / ((2 * m : ℕ) : ℝ))))]
  rw [show a + ((2 * 0 : ℕ) : ℝ) * ((b - a) / ((2 * m : ℕ) : ℝ)) = a from by norm_num]
  rw [show a + ((2 * m : ℕ) : ℝ) * ((b - a) / ((2 * m : ℕ) : ℝ)) = b from by rw [← hb]]

/-- Witness for C8: the cube on [0, 1] with two subintervals. -/
theorem integrate_exact_on_cubics_witness :
    Even 2 ∧ (2 : ℕ) ≤ 2 ∧ (0 : ℝ) < 1 ∧
      integrate (cubicFun 0 0 0 1) 0 1 2 = ∫ x in (0 : ℝ)..1, (0 + 0 * x + 0 * x ^ 2 + 1 * x ^ 3) :=
  ⟨by decide, le_rfl, by norm_num,
    integrate_exact_on_cubics 0 0 0 1 0 1 2 (by decide) le_rfl (by norm_num)⟩
